import Mathlib

/-!
Verification development for the real-time transcription fan-out and
multi-language captioning engine (`src/server/main.py`).

The Python source is shallowly embedded: the language catalog, the
transcript-segment data model, the `Translator` class, the
`participant_attributes_changed` callback (translator registry), the
final-transcript fan-out loop of `_forward_transcription`, and the
`get/languages` RPC handler are all translated into executable Lean
definitions, and the scheduling of the fire-and-forget translation tasks
spawned with `asyncio.create_task` is modelled by an explicit
completion-time schedule.
-/

namespace Transcriber

/-- The `Language` dataclass: `{code, name, flag}`. -/
structure Language where
  code : String
  name : String
  flag : String
deriving DecidableEq

/-- The module-level `languages` dict, in insertion order (Python dicts
preserve insertion order).  Keys of the dict are the `code` fields. -/
def languages : List Language :=
  [ ⟨"en", "English", "🇺🇸"⟩,
    ⟨"es", "Spanish", "🇪🇸"⟩,
    ⟨"fr", "French", "🇫🇷"⟩,
    ⟨"de", "German", "🇩🇪"⟩,
    ⟨"ja", "Japanese", "🇯🇵"⟩ ]

/-- The set of valid short codes (the keys of `languages`). -/
def catalogCodes : List String := languages.map (fun l => l.code)

/-- `LanguageCode[c]`: the Python `LanguageCode` enum is built with member
name = short code and member value = display name
(`Enum("LanguageCode", {code: lang.name for code, lang in languages.items()})`).
Subscripting the enum class by a member name returns the member, or raises
`KeyError` when the name is unknown; here the member is represented by its
value (the display name) and `KeyError` by `none`. -/
def languageCodeLookup (c : String) : Option String :=
  (languages.find? (fun l => l.code = c)).map (fun l => l.name)

/-- `rtc.TranscriptionSegment` as constructed by the source (only the fields
the source ever sets). -/
structure TranscriptionSegment where
  id : String
  text : String
  start_time : Nat
  end_time : Nat
  language : String
  final : Bool
deriving DecidableEq

/-- `rtc.Transcription(participant_identity, track_sid, segments)`. -/
structure Transcription where
  participant_identity : String
  track_sid : String
  segments : List TranscriptionSegment
deriving DecidableEq

/-- The `Translator` class.  `code` is `self.lang.name` (the enum member
name, i.e. the short code, e.g. `"es"`); `displayName` is `self.lang.value`
(e.g. `"Spanish"`); `prompt` is `self.prompt`. -/
structure Translator where
  code : String
  displayName : String
  prompt : String
deriving DecidableEq

/-- `Translator.__init__`: derives the system prompt from the language's
display name (`lang.value`). -/
def mkTranslator (code displayName : String) : Translator :=
  { code := code, displayName := displayName,
    prompt := "You are a translator for language: " ++ displayName ++
      ". Your only response should be the exact translation of input text in the " ++
      displayName ++ " language." }

/-- Python `str.strip()`: remove leading and trailing whitespace.  (Defined
over the character list so that it evaluates by kernel reduction; Lean's
`String.trim` is extensionally the same operation but is written with
byte-position loops the kernel cannot unfold.) -/
def pyStrip (s : String) : String :=
  ⟨((s.data.dropWhile Char.isWhitespace).reverse.dropWhile Char.isWhitespace).reverse⟩

/-- `Translator.translate`, given `responseText` = `response.text` as returned
by the translation backend (`genai` / gemini-pro) for this job, and `freshId`
the identifier produced by `utils.misc.shortuuid("SG_")`.  The body computes
`translated = response.text.strip()` (Python `str.strip` = `pyStrip`)
and publishes
`Transcription(room.local_participant.identity, track.sid, [segment])` with
`segment = TranscriptionSegment(id=freshId, text=translated, start_time=0,
end_time=0, language=self.lang.name, final=True)`.  The returned value is the
`Transcription` handed to `publish_transcription`. -/
def Translator.translate (t : Translator) (responseText : String)
    (freshId : String) (identity trackSid : String) : Transcription :=
  { participant_identity := identity,
    track_sid := trackSid,
    segments := [{ id := freshId, text := pyStrip responseText,
                   start_time := 0, end_time := 0,
                   language := t.code, final := true }] }

/-- The `translators` dict of `entrypoint`, as an insertion-ordered
association list from language code to `Translator` (Python dict semantics:
a new key is appended at the end; `translators.values()` iterates in
insertion order). -/
abbrev Pool := List (String × Translator)

/-- The keys of the `translators` dict. -/
def Pool.keys (p : Pool) : List String := p.map (fun kv => kv.1)

/-- Log output of the `participant_attributes_changed` callback. -/
inductive LogEntry where
  | addedTranslator (lang : String)
  | unsupportedCode (lang : String)
deriving DecidableEq

/-- The `on_attributes_changed` callback body, given
`langAttr = attrs.get("captions_language")` (`none` when the key is absent).
Python truthiness: `if lang and ...` rejects `None` and the empty string.
The guard is `lang and lang != "en" and lang not in translators`; inside it,
`LanguageCode[lang]` is evaluated before the dict assignment, so a `KeyError`
(unknown code) leaves `translators` untouched and logs a warning. -/
def on_attributes_changed (pool : Pool) (langAttr : Option String) :
    Pool × List LogEntry :=
  match langAttr with
  | none => (pool, [])
  | some lang =>
    if lang = "" then (pool, [])
    else if lang = "en" then (pool, [])
    else if (pool.lookup lang).isSome then (pool, [])
    else
      match languageCodeLookup lang with
      | some dn => (pool ++ [(lang, mkTranslator lang dn)],
                    [LogEntry.addedTranslator lang])
      | none => (pool, [LogEntry.unsupportedCode lang])

/-- A sequence of preference-change notifications applied to the pool
(the log output is discarded). -/
def applyReqs (pool : Pool) : List (Option String) → Pool
  | [] => pool
  | r :: rs => applyReqs (on_attributes_changed pool r).1 rs

/-- `asdict(lang)`: the dataclass fields in declaration order, as one
`{code, name, flag}` record of the JSON array. -/
def asdict (l : Language) : List (String × String) :=
  [("code", l.code), ("name", l.name), ("flag", l.flag)]

/-- The `get/languages` RPC handler: it reads only the module-level
`languages` catalog and ignores all session state (in particular the
`translators` pool, passed here to make that independence statable), and
returns the serialized array `[asdict(lang) for lang in languages.values()]`. -/
def get_languages (_translatorsState : Pool) : List (List (String × String)) :=
  languages.map asdict

/-- Events observed by the session's event loop, linearized: `attrsChanged`
is a `participant_attributes_changed` callback invocation (carrying
`attrs.get("captions_language")`); `interim` and `finalSeg` are recognizer
events consumed by `_forward_transcription`.  A recognizer final carries its
text together with the language and the timing markers the recognizer
produced — fields the source never reads (the embedding carries them to make
that explicit). -/
inductive Ev where
  | attrsChanged (langAttr : Option String)
  | interim (text : String)
  | finalSeg (text : String) (recLang : String) (recStart recEnd : Nat)
deriving DecidableEq

/-- Observable session state: the `translators` dict, the original-language
publish calls in order, the translation jobs spawned with
`asyncio.create_task(translator.translate(message, track))` — recorded as
(index of the originating final segment, target language code) in spawn
order — and the log output. -/
structure SessionState where
  translators : Pool
  originals : List Transcription
  jobs : List (Nat × String)
  logs : List LogEntry
deriving DecidableEq

def initState : SessionState := { translators := [], originals := [], jobs := [], logs := [] }

/-- One event-loop step.  On a final transcript, `_forward_transcription`
first publishes the original segment
(`TranscriptionSegment(id=shortuuid("SG_"), text=message, start_time=0,
end_time=0, language="en", final=True)` wrapped in
`Transcription(participant.identity, track.sid, [...])`), then iterates over
`translators.values()` spawning one translation task per active translator;
the callback body runs without suspension points, so the iteration is a
snapshot of the dict at dispatch.  The fresh ids of `shortuuid` are modelled
by the publish counter. -/
def stepEv (identity trackSid : String) (s : SessionState) : Ev → SessionState
  | Ev.attrsChanged la =>
    let r := on_attributes_changed s.translators la
    { s with translators := r.1, logs := s.logs ++ r.2 }
  | Ev.interim _ => s
  | Ev.finalSeg text _ _ _ =>
    let k := s.originals.length
    let seg : TranscriptionSegment :=
      { id := "SG_" ++ toString k, text := text, start_time := 0, end_time := 0,
        language := "en", final := true }
    { s with
      originals := s.originals ++ [{ participant_identity := identity,
                                     track_sid := trackSid, segments := [seg] }],
      jobs := s.jobs ++ s.translators.map (fun kv => (k, kv.1)) }

/-- Run of `_forward_transcription` interleaved with attribute callbacks. -/
def runEvs (identity trackSid : String) (s : SessionState) : List Ev → SessionState
  | [] => s
  | e :: es => runEvs identity trackSid (stepEv identity trackSid s e) es

/-- Number of final transcripts in an event sequence. -/
def countFinals : List Ev → Nat
  | [] => 0
  | Ev.finalSeg _ _ _ _ :: es => countFinals es + 1
  | _ :: es => countFinals es

/-- The prefix of an event sequence strictly before its `k`-th final
transcript (0-indexed); the whole sequence when it has at most `k` finals. -/
def beforeFinal : List Ev → Nat → List Ev
  | [], _ => []
  | Ev.finalSeg _ _ _ _ :: _, 0 => []
  | Ev.finalSeg t l a b :: es, Nat.succ k => Ev.finalSeg t l a b :: beforeFinal es k
  | e :: es, k => e :: beforeFinal es k

/-! ### Scheduling model for the fire-and-forget translation tasks

For one target language, the source spawns one `asyncio` task per final
segment (`asyncio.create_task(translator.translate(message, track))`); each
task immediately hands its blocking backend call to the default thread-pool
executor (which runs enough threads to keep the calls concurrent) and is
resumed when that call returns.  Task `i` is therefore dispatched at the
arrival time of the `i`-th final and its caption is published once its
backend call completes, at time `dispatch i + latency i`; the event loop
resumes tasks in completion order, first-dispatched first among
simultaneous completions. -/

/-- Completion time of the translation task for segment `i`: its dispatch
time plus the latency of its backend call. -/
def completionTime (disp lats : List Nat) (i : Nat) : Nat :=
  disp.getD i 0 + lats.getD i 0

/-- Insert a newly considered task into a publish sequence ordered by
completion time, after every task that completes no later than it. -/
def insertByCompletion (c : Nat → Nat) (i : Nat) : List Nat → List Nat
  | [] => [i]
  | j :: js => if c i < c j then i :: j :: js else j :: insertByCompletion c i js

/-- The order (as a list of segment indices) in which one language's
translated captions are published, given dispatch times `disp` and backend
latencies `lats` for the segments `0, …, lats.length - 1`. -/
def publishOrder (disp lats : List Nat) : List Nat :=
  (List.range lats.length).foldl
    (fun acc i => insertByCompletion (completionTime disp lats) i acc) []

/-- Result of running the spawned translation tasks of one session: which
(segment, language) jobs were attempted (i.e. reached their backend call),
which captions were published — recorded as
(segment index, language code, caption text = `response.text.strip()`) —
and which jobs failed. -/
structure ExecResult where
  attempted : List (Nat × String)
  published : List (Nat × String × String)
  failures : List (Nat × String)
deriving DecidableEq

/-- Execute the spawned translation jobs.  `outcome k L` is the backend's
behaviour for segment `k` in language `L`: `some raw` when
`model.generate_content` returns with `response.text = raw`, `none` when the
call raises.  Every spawned task runs its own backend call: the tasks share
no state, so each job is attempted regardless of any other job's outcome.  A
raising call terminates only its own task before the publish step — nothing
is published for that job and the exception is reported by the event loop's
unhandled-task-exception handler (the `failures` list). -/
def execJobs (outcome : Nat → String → Option String) :
    List (Nat × String) → ExecResult
  | [] => { attempted := [], published := [], failures := [] }
  | (k, L) :: rest =>
    let r := execJobs outcome rest
    match outcome k L with
    | some raw => { attempted := (k, L) :: r.attempted,
                    published := (k, L, pyStrip raw) :: r.published,
                    failures := r.failures }
    | none => { attempted := (k, L) :: r.attempted,
                published := r.published,
                failures := (k, L) :: r.failures }

/-- The captions published for one target language. -/
def publishedFor (r : ExecResult) (L : String) : List (Nat × String × String) :=
  r.published.filter (fun p => p.2.1 = L)

example :
    publishedFor (execJobs (fun k L => if k = 0 ∧ L = "es" then none else some "ok")
      [(0, "es"), (0, "fr"), (1, "es")]) "es" = [(1, "es", "ok")] := by decide

example : publishOrder [0, 1] [0, 0] = [0, 1] := by decide
example : publishOrder [0, 1] [5, 0] = [1, 0] := by decide
example : (stepEv "a" "t" initState (Ev.finalSeg "hi" "fr" 3 7)).originals =
    [{ participant_identity := "a", track_sid := "t",
       segments := [{ id := "SG_0", text := "hi", start_time := 0, end_time := 0,
                      language := "en", final := true }] }] := by decide

/-! ## Theorems -/

lemma insertByCompletion_append (c : Nat → Nat) (i : Nat) (acc : List Nat)
    (h : ∀ j ∈ acc, c j ≤ c i) : insertByCompletion c i acc = acc ++ [i] := by
  induction acc with
  | nil => rfl
  | cons a as ih =>
    have hca : c a ≤ c i := h a (List.mem_cons_self a as)
    simp only [insertByCompletion, if_neg (Nat.not_lt.mpr hca)]
    rw [ih (fun j hj => h j (List.mem_cons_of_mem a hj))]
    rfl

lemma publishOrder_fold (disp lats : List Nat)
    (h : ∀ j, j < lats.length → ∀ i, i < j →
      completionTime disp lats i ≤ completionTime disp lats j) :
    ∀ n, n ≤ lats.length →
      (List.range n).foldl
        (fun acc i => insertByCompletion (completionTime disp lats) i acc) []
        = List.range n := by
  intro n
  induction n with
  | zero => intro _; rfl
  | succ m ih =>
    intro hm
    rw [List.range_succ, List.foldl_append, ih (Nat.le_of_succ_le hm)]
    simp only [List.foldl_cons, List.foldl_nil]
    rw [insertByCompletion_append _ _ _
      (fun j hj => h m (Nat.lt_of_succ_le hm) j (List.mem_range.mp hj)),
      ← List.range_succ]

/-- C1 (counterexample).  The claim — for every sequence of final segments
dispatched in index order to one active translator and every assignment of
backend latencies, the translated captions are published in index order — is
false of the source: `_forward_transcription` spawns one independent
fire-and-forget task per segment (`asyncio.create_task`), with no
per-language queue, so with dispatch times 0, 1 and latencies 5, 0 the
second segment's caption is published at time 1, before the first segment's
at time 5. -/
theorem C1_per_language_order_counterexample :
    ¬ ∀ (disp lats : List Nat),
        lats.length = disp.length →
        (∀ j, j + 1 < disp.length → disp.getD j 0 ≤ disp.getD (j + 1) 0) →
        List.Pairwise (fun a b => a < b) (publishOrder disp lats) := by
  intro h
  have hmono : ∀ j, j + 1 < ([0, 1] : List Nat).length →
      ([0, 1] : List Nat).getD j 0 ≤ ([0, 1] : List Nat).getD (j + 1) 0 := by
    intro j hj
    have hj0 : j = 0 := by simp at hj; omega
    subst hj0; decide
  exact absurd (h [0, 1] [5, 0] rfl hmono) (by decide)

/-- C1 (amended).  One language's translated captions are published in
completion order of their backend calls (dispatch time + latency, ties
resolved in dispatch order); index order is preserved exactly when the
latency assignment keeps completion times monotone in the segment index —
e.g. under constant latency — and is not guaranteed otherwise. -/
theorem C1_per_language_order_amended (disp lats : List Nat)
    (h : ∀ j, j < lats.length → ∀ i, i < j →
      completionTime disp lats i ≤ completionTime disp lats j) :
    publishOrder disp lats = List.range lats.length :=
  publishOrder_fold disp lats h lats.length (Nat.le_refl _)

theorem C1_per_language_order_amended_witness :
    publishOrder [0, 1, 2] [1, 1, 1] = List.range 3 :=
  C1_per_language_order_amended [0, 1, 2] [1, 1, 1] (by decide)

lemma lookup_isSome_iff (p : Pool) (c : String) :
    (p.lookup c).isSome = true ↔ c ∈ Pool.keys p := by
  induction p with
  | nil => simp [List.lookup, Pool.keys]
  | cons kv rest ih =>
    obtain ⟨k, v⟩ := kv
    by_cases h : c = k
    · subst h; simp [List.lookup, Pool.keys]
    · have hbeq : (c == k) = false := by simp [h]
      simp [List.lookup, hbeq, Pool.keys, h]

lemma lookup_eq_none_of_not_mem (p : Pool) (c : String) (h : c ∉ Pool.keys p) :
    p.lookup c = none := by
  cases hl : p.lookup c with
  | none => rfl
  | some v => exact absurd ((lookup_isSome_iff p c).mp (by simp [hl])) h

lemma mem_catalog_of_valid (c dn : String) (h : languageCodeLookup c = some dn) :
    c ∈ catalogCodes := by
  unfold languageCodeLookup at h
  cases hf : languages.find? (fun l => l.code = c) with
  | none => rw [hf] at h; simp at h
  | some l =>
    have hp := List.find?_some hf
    have hm := List.mem_of_find?_eq_some hf
    simp at hp
    exact hp ▸ List.mem_map_of_mem _ hm

lemma languageCodeLookup_eq_none (c : String) (h : c ∉ catalogCodes) :
    languageCodeLookup c = none := by
  cases hl : languageCodeLookup c with
  | none => rfl
  | some dn => exact absurd (mem_catalog_of_valid c dn hl) h

lemma mem_catalog_ne_empty (c : String) (h : c ∈ catalogCodes) : c ≠ "" := by
  intro he; subst he; revert h; decide

lemma on_attrs_insert (pool : Pool) (c dn : String)
    (hc : languageCodeLookup c = some dn) (hne : c ≠ "en")
    (hnm : pool.lookup c = none) :
    on_attributes_changed pool (some c)
      = (pool ++ [(c, mkTranslator c dn)], [LogEntry.addedTranslator c]) := by
  have hemp : c ≠ "" := mem_catalog_ne_empty c (mem_catalog_of_valid c dn hc)
  simp [on_attributes_changed, hemp, hne, hnm, hc]

lemma on_attrs_active_noop (pool : Pool) (c : String)
    (h : (pool.lookup c).isSome = true) :
    on_attributes_changed pool (some c) = (pool, []) := by
  by_cases h1 : c = ""
  · simp [on_attributes_changed, h1]
  · by_cases h2 : c = "en"
    · simp [on_attributes_changed, h1, h2]
    · simp [on_attributes_changed, h1, h2, h]

lemma keys_step_nodup (pool : Pool) (la : Option String)
    (h : (Pool.keys pool).Nodup) :
    (Pool.keys (on_attributes_changed pool la).1).Nodup := by
  match la with
  | none => simpa [on_attributes_changed]
  | some c =>
    by_cases h1 : c = ""
    · simpa [on_attributes_changed, h1]
    by_cases h2 : c = "en"
    · simpa [on_attributes_changed, h1, h2]
    by_cases h3 : (pool.lookup c).isSome
    · simpa [on_attrs_active_noop pool c h3]
    cases hc : languageCodeLookup c with
    | none => simpa [on_attributes_changed, h1, h2, h3, hc]
    | some dn =>
      rw [on_attrs_insert pool c dn hc h2 (Option.not_isSome_iff_eq_none.mp h3)]
      have hnm : c ∉ Pool.keys pool :=
        fun hm => h3 ((lookup_isSome_iff pool c).mpr hm)
      have hkeys : Pool.keys (pool ++ [(c, mkTranslator c dn)])
          = Pool.keys pool ++ [c] := by simp [Pool.keys]
      rw [hkeys]
      exact h.append (List.nodup_singleton c)
        (fun a ha hac => hnm ((List.mem_singleton.mp hac) ▸ ha))

lemma keys_applyReqs_nodup (pool : Pool) (reqs : List (Option String))
    (h : (Pool.keys pool).Nodup) :
    (Pool.keys (applyReqs pool reqs)).Nodup := by
  induction reqs generalizing pool with
  | nil => exact h
  | cons r rs ih => exact ih _ (keys_step_nodup pool r h)

lemma applyReqs_active (pool : Pool) (c : String)
    (h : (pool.lookup c).isSome = true) (n : Nat) :
    applyReqs pool (List.replicate n (some c)) = pool := by
  induction n with
  | zero => rfl
  | succ m ih =>
    rw [List.replicate_succ]
    show applyReqs (on_attributes_changed pool (some c)).1 _ = pool
    rw [show (on_attributes_changed pool (some c)).1 = pool from
      by rw [on_attrs_active_noop pool c h]]
    exact ih

lemma lookup_append_self (pool : Pool) (c : String) (t : Translator) :
    (((pool ++ [(c, t)]) : Pool).lookup c).isSome = true := by
  apply (lookup_isSome_iff _ _).mpr
  simp [Pool.keys]

/-- C3.  The translator registry holds at most one `TranslatorWorker` per
language code: starting from any duplicate-free registry, any sequence of
preference-change notifications keeps the key list duplicate-free; a request
for an already-active code is a no-op (nothing created, nothing logged); and
`n ≥ 1` requests for the same not-yet-active catalog code (a valid target
code, i.e. in the catalog and not the session default `"en"`) create exactly
one worker for that code.  (Requests are serialized by the single-threaded
event loop, so a burst of N concurrent notifications is a sequence of N
callback invocations.) -/
theorem C3_registry_at_most_one_worker (pool : Pool) (reqs : List (Option String))
    (c dn : String) (n : Nat) :
    ((Pool.keys pool).Nodup → (Pool.keys (applyReqs pool reqs)).Nodup)
    ∧ ((pool.lookup c).isSome = true →
        on_attributes_changed pool (some c) = (pool, []))
    ∧ (0 < n → languageCodeLookup c = some dn → c ≠ "en" → pool.lookup c = none →
        applyReqs pool (List.replicate n (some c))
          = pool ++ [(c, mkTranslator c dn)]) := by
  refine ⟨keys_applyReqs_nodup pool reqs, on_attrs_active_noop pool c, ?_⟩
  intro hn hc hne hnm
  cases n with
  | zero => exact absurd hn (by simp)
  | succ m =>
    rw [List.replicate_succ]
    show applyReqs (on_attributes_changed pool (some c)).1 _ = _
    rw [show (on_attributes_changed pool (some c)).1 = pool ++ [(c, mkTranslator c dn)]
      from by rw [on_attrs_insert pool c dn hc hne hnm]]
    exact applyReqs_active _ c (lookup_append_self pool c _) m

theorem C3_registry_at_most_one_worker_witness :
    (Pool.keys (applyReqs [] [some "es", some "de", some "es"])).Nodup
    ∧ on_attributes_changed [("es", mkTranslator "es" "Spanish")] (some "es")
        = ([("es", mkTranslator "es" "Spanish")], [])
    ∧ applyReqs [] (List.replicate 2 (some "es"))
        = [("es", mkTranslator "es" "Spanish")] :=
  ⟨(C3_registry_at_most_one_worker [] [some "es", some "de", some "es"] "es" "Spanish" 2).1
      (by decide),
   (C3_registry_at_most_one_worker [("es", mkTranslator "es" "Spanish")] [] "es" "Spanish" 2).2.1
      (by decide),
   (C3_registry_at_most_one_worker [] [] "es" "Spanish" 2).2.2
      (by decide) (by decide) (by decide) rfl⟩

/-- C4.  A preference change requesting a caption-language code outside the
Language Catalog creates no worker: from any registry whose keys are catalog
codes, the callback leaves the pool unchanged and logs exactly the
`Unsupported code` warning (`LanguageCode[lang]` raises `KeyError` before the
dict assignment, so the pool mutation never happens).  Codes here are
non-empty identifiers; the empty string is Python-falsy and means "no
request". -/
theorem C4_unknown_code_rejected (pool : Pool) (c : String)
    (hwf : ∀ k ∈ Pool.keys pool, k ∈ catalogCodes)
    (hinv : c ∉ catalogCodes) (hne : c ≠ "") :
    on_attributes_changed pool (some c) = (pool, [LogEntry.unsupportedCode c]) := by
  have hen : c ≠ "en" := fun h => hinv (h ▸ (by decide : "en" ∈ catalogCodes))
  have hnm : pool.lookup c = none :=
    lookup_eq_none_of_not_mem pool c (fun hm => hinv (hwf c hm))
  simp [on_attributes_changed, hne, hen, hnm, languageCodeLookup_eq_none c hinv]

theorem C4_unknown_code_rejected_witness :
    on_attributes_changed [("es", mkTranslator "es" "Spanish")] (some "xx")
      = ([("es", mkTranslator "es" "Spanish")], [LogEntry.unsupportedCode "xx"]) :=
  C4_unknown_code_rejected [("es", mkTranslator "es" "Spanish")] "xx"
    (by decide) (by decide) (by decide)

lemma en_not_inserted (pool : Pool) (la : Option String)
    (h : "en" ∉ Pool.keys pool) :
    "en" ∉ Pool.keys (on_attributes_changed pool la).1 := by
  match la with
  | none => simpa [on_attributes_changed]
  | some c =>
    by_cases h1 : c = ""
    · simpa [on_attributes_changed, h1]
    by_cases h2 : c = "en"
    · simpa [on_attributes_changed, h1, h2]
    by_cases h3 : (pool.lookup c).isSome
    · simpa [on_attrs_active_noop pool c h3]
    cases hc : languageCodeLookup c with
    | none => simpa [on_attributes_changed, h1, h2, h3, hc]
    | some dn =>
      rw [on_attrs_insert pool c dn hc h2 (Option.not_isSome_iff_eq_none.mp h3)]
      simp [Pool.keys] at h ⊢
      exact ⟨h, fun he => h2 he.symm⟩

lemma en_never_in_applyReqs (reqs : List (Option String)) :
    ∀ pool : Pool, "en" ∉ Pool.keys pool →
      "en" ∉ Pool.keys (applyReqs pool reqs) := by
  induction reqs with
  | nil => exact fun _ h => h
  | cons r rs ih => exact fun pool h => ih _ (en_not_inserted pool r h)

/-- C5.  No `TranslatorWorker` is ever created for the session's default /
original language code `"en"`: a notification naming `"en"` leaves the pool
unchanged (and logs nothing), and `"en"` is never a key of a registry reached
from the empty one by any notification sequence. -/
theorem C5_default_language_never_translated :
    (∀ pool : Pool, on_attributes_changed pool (some "en") = (pool, []))
    ∧ ∀ reqs : List (Option String), "en" ∉ Pool.keys (applyReqs [] reqs) := by
  constructor
  · intro pool; simp [on_attributes_changed]
  · intro reqs; exact en_never_in_applyReqs reqs [] (by simp [Pool.keys])

theorem C5_default_language_never_translated_witness :
    "en" ∉ Pool.keys (applyReqs [] [some "en", some "es", some "en"]) :=
  C5_default_language_never_translated.2 [some "en", some "es", some "en"]

lemma filter_eq_nil_of_forall {α : Type} (p : α → Bool) (l : List α)
    (h : ∀ a ∈ l, p a = false) : l.filter p = [] := by
  induction l with
  | nil => rfl
  | cons a as ih =>
    simp [List.filter, h a (List.mem_cons_self a as),
      ih (fun b hb => h b (List.mem_cons_of_mem a hb))]

lemma filter_eq_self_of_forall {α : Type} (p : α → Bool) (l : List α)
    (h : ∀ a ∈ l, p a = true) : l.filter p = l := by
  induction l with
  | nil => rfl
  | cons a as ih =>
    simp [List.filter, h a (List.mem_cons_self a as),
      ih (fun b hb => h b (List.mem_cons_of_mem a hb))]

lemma runEvs_originals_length (i t : String) (es : List Ev) :
    ∀ s : SessionState,
      (runEvs i t s es).originals.length = s.originals.length + countFinals es := by
  induction es with
  | nil => intro s; simp [runEvs, countFinals]
  | cons e rest ih =>
    intro s
    cases e with
    | attrsChanged la => simp [runEvs, stepEv, countFinals, ih]
    | interim tx => simp [runEvs, stepEv, countFinals, ih]
    | finalSeg tx lg a b => simp [runEvs, stepEv, countFinals, ih]; omega

lemma runEvs_jobs_decomp (i t : String) (es : List Ev) :
    ∀ s : SessionState, ∃ tail : List (Nat × String),
      (runEvs i t s es).jobs = s.jobs ++ tail
      ∧ ∀ j ∈ tail, s.originals.length ≤ j.1 := by
  induction es with
  | nil => intro s; exact ⟨[], by simp [runEvs], by simp⟩
  | cons e rest ih =>
    intro s
    cases e with
    | attrsChanged la =>
      obtain ⟨tail, h1, h2⟩ := ih (stepEv i t s (Ev.attrsChanged la))
      exact ⟨tail, by simpa [runEvs, stepEv] using h1, by simpa [stepEv] using h2⟩
    | interim tx =>
      obtain ⟨tail, h1, h2⟩ := ih (stepEv i t s (Ev.interim tx))
      exact ⟨tail, by simpa [runEvs, stepEv] using h1, by simpa [stepEv] using h2⟩
    | finalSeg tx lg a b =>
      obtain ⟨tail, h1, h2⟩ := ih (stepEv i t s (Ev.finalSeg tx lg a b))
      refine ⟨s.translators.map (fun kv => (s.originals.length, kv.1)) ++ tail, ?_, ?_⟩
      · show (runEvs i t (stepEv i t s (Ev.finalSeg tx lg a b)) rest).jobs = _
        rw [h1]; simp [stepEv]
      · intro j hj
        rcases List.mem_append.mp hj with hm | hm
        · obtain ⟨kv, _, rfl⟩ := List.mem_map.mp hm
          exact Nat.le_refl _
        · have := h2 j hm
          simp [stepEv] at this
          omega

lemma stepFinal_jobs_bound (i t : String) (s : SessionState) (tx lg : String)
    (a b : Nat) (hb : ∀ j ∈ s.jobs, j.1 < s.originals.length) :
    ∀ j ∈ (stepEv i t s (Ev.finalSeg tx lg a b)).jobs,
      j.1 < (stepEv i t s (Ev.finalSeg tx lg a b)).originals.length := by
  intro j hj
  have hlen : (stepEv i t s (Ev.finalSeg tx lg a b)).originals.length
      = s.originals.length + 1 := by simp [stepEv]
  rw [hlen]
  rcases List.mem_append.mp hj with hm | hm
  · exact Nat.lt_succ_of_lt (hb j hm)
  · obtain ⟨kv, _, rfl⟩ := List.mem_map.mp hm
    exact Nat.lt_succ_self _

lemma runEvs_jobs_lt (i t : String) (es : List Ev) :
    ∀ s : SessionState, (∀ j ∈ s.jobs, j.1 < s.originals.length) →
      ∀ j ∈ (runEvs i t s es).jobs, j.1 < s.originals.length + countFinals es := by
  induction es with
  | nil =>
    intro s hb j hj
    simp [runEvs] at hj
    have := hb j hj
    simp [countFinals]; omega
  | cons e rest ih =>
    intro s hb j hj
    cases e with
    | attrsChanged la =>
      have := ih (stepEv i t s (Ev.attrsChanged la)) (by simpa [stepEv] using hb) j
        (by simpa [runEvs] using hj)
      simpa [stepEv, countFinals] using this
    | interim tx =>
      have := ih (stepEv i t s (Ev.interim tx)) (by simpa [stepEv] using hb) j
        (by simpa [runEvs] using hj)
      simpa [stepEv, countFinals] using this
    | finalSeg tx lg a b =>
      have := ih _ (stepFinal_jobs_bound i t s tx lg a b hb) j
        (by simpa [runEvs] using hj)
      have hlen : (stepEv i t s (Ev.finalSeg tx lg a b)).originals.length
          = s.originals.length + 1 := by simp [stepEv]
      rw [hlen] at this
      have hcf : countFinals (Ev.finalSeg tx lg a b :: rest)
          = countFinals rest + 1 := rfl
      rw [hcf]
      omega

lemma runEvs_keys_nodup (i t : String) (es : List Ev) :
    ∀ s : SessionState, (Pool.keys s.translators).Nodup →
      (Pool.keys (runEvs i t s es).translators).Nodup := by
  induction es with
  | nil => intro s h; simpa [runEvs] using h
  | cons e rest ih =>
    intro s h
    cases e with
    | attrsChanged la =>
      exact ih (stepEv i t s (Ev.attrsChanged la))
        (by simpa [stepEv] using keys_step_nodup s.translators la h)
    | interim tx => exact ih (stepEv i t s (Ev.interim tx)) (by simpa [stepEv] using h)
    | finalSeg tx lg a b =>
      exact ih (stepEv i t s (Ev.finalSeg tx lg a b)) (by simpa [stepEv] using h)

lemma runEvs_jobs_filter (i t : String) (es : List Ev) :
    ∀ (s : SessionState) (k : Nat),
      (∀ j ∈ s.jobs, j.1 < s.originals.length) →
      k < countFinals es →
      (runEvs i t s es).jobs.filter (fun j => j.1 = s.originals.length + k)
        = (Pool.keys (runEvs i t s (beforeFinal es k)).translators).map
            (fun c => (s.originals.length + k, c)) := by
  induction es with
  | nil => intro s k _ hk; exact absurd hk (by simp [countFinals])
  | cons e rest ih =>
    intro s k hbound hk
    cases e with
    | attrsChanged la =>
      have hb' : ∀ j ∈ (stepEv i t s (Ev.attrsChanged la)).jobs,
          j.1 < (stepEv i t s (Ev.attrsChanged la)).originals.length := by
        simpa [stepEv] using hbound
      have hk' : k < countFinals rest := by simpa [countFinals] using hk
      have := ih (stepEv i t s (Ev.attrsChanged la)) k hb' hk'
      simpa [runEvs, stepEv, beforeFinal] using this
    | interim tx =>
      have hb' : ∀ j ∈ (stepEv i t s (Ev.interim tx)).jobs,
          j.1 < (stepEv i t s (Ev.interim tx)).originals.length := by
        simpa [stepEv] using hbound
      have hk' : k < countFinals rest := by simpa [countFinals] using hk
      have := ih (stepEv i t s (Ev.interim tx)) k hb' hk'
      simpa [runEvs, stepEv, beforeFinal] using this
    | finalSeg tx lg a b =>
      have hb' := stepFinal_jobs_bound i t s tx lg a b hbound
      cases k with
      | zero =>
        obtain ⟨tail, hT, hTge⟩ :=
          runEvs_jobs_decomp i t rest (stepEv i t s (Ev.finalSeg tx lg a b))
        show (runEvs i t (stepEv i t s (Ev.finalSeg tx lg a b)) rest).jobs.filter _
            = (Pool.keys (runEvs i t s (beforeFinal (Ev.finalSeg tx lg a b :: rest) 0)).translators).map _
        rw [hT]
        have hstep : (stepEv i t s (Ev.finalSeg tx lg a b)).jobs
            = s.jobs ++ s.translators.map (fun kv => (s.originals.length, kv.1)) := rfl
        rw [hstep, List.append_assoc, List.filter_append, List.filter_append]
        rw [filter_eq_nil_of_forall _ s.jobs
          (fun j hj => by have := hbound j hj; simp; omega)]
        rw [filter_eq_nil_of_forall _ tail
          (fun j hj => by have := hTge j hj; simp [stepEv] at this; simp; omega)]
        rw [filter_eq_self_of_forall _ _
          (fun j hj => by obtain ⟨kv, _, rfl⟩ := List.mem_map.mp hj; simp)]
        show _ = (Pool.keys (runEvs i t s []).translators).map _
        simp [runEvs, Pool.keys, List.map_map]
      | succ m =>
        have hk' : m < countFinals rest := by
          simp [countFinals] at hk; omega
        have := ih (stepEv i t s (Ev.finalSeg tx lg a b)) m hb' hk'
        have harith : (stepEv i t s (Ev.finalSeg tx lg a b)).originals.length + m
            = s.originals.length + (m + 1) := by
          simp [stepEv]; omega
        rw [harith] at this
        show (runEvs i t (stepEv i t s (Ev.finalSeg tx lg a b)) rest).jobs.filter _
            = (Pool.keys (runEvs i t s
                (beforeFinal (Ev.finalSeg tx lg a b :: rest) (m + 1))).translators).map _
        rw [show beforeFinal (Ev.finalSeg tx lg a b :: rest) (m + 1)
            = Ev.finalSeg tx lg a b :: beforeFinal rest m from rfl]
        exact this

/-- C2.  For every linearized event sequence: exactly one original-language
publish call is made per final transcript (the count of publish calls equals
the count of finals); the translation requests tagged with the `k`-th final
are exactly one per translator active at the instant of that final's
dispatch — in dict order, with no duplicates — so a translator created after
the `k`-th final's dispatch never receives it; and every spawned request is
tagged with the index of some already-processed final. -/
theorem C2_fanout_dispatch_exactly_once (i t : String) (es : List Ev) :
    (runEvs i t initState es).originals.length = countFinals es
    ∧ (∀ k, k < countFinals es →
        (runEvs i t initState es).jobs.filter (fun j => j.1 = k)
          = (Pool.keys (runEvs i t initState (beforeFinal es k)).translators).map
              (fun c => (k, c))
        ∧ (Pool.keys (runEvs i t initState (beforeFinal es k)).translators).Nodup)
    ∧ (∀ j ∈ (runEvs i t initState es).jobs, j.1 < countFinals es) := by
  refine ⟨by simpa [initState] using runEvs_originals_length i t es initState, ?_, ?_⟩
  · intro k hk
    constructor
    · have := runEvs_jobs_filter i t es initState k (by simp [initState]) hk
      simpa [initState] using this
    · exact runEvs_keys_nodup i t (beforeFinal es k) initState (by simp [initState, Pool.keys])
  · intro j hj
    have := runEvs_jobs_lt i t es initState (by simp [initState]) j hj
    simpa [initState] using this

theorem C2_fanout_dispatch_exactly_once_witness :
    (runEvs "agent" "TR" initState
        [Ev.attrsChanged (some "es"), Ev.finalSeg "hello" "en" 3 5,
         Ev.attrsChanged (some "fr"), Ev.finalSeg "again" "en" 6 9]).jobs.filter
        (fun j => j.1 = 1)
      = (Pool.keys (runEvs "agent" "TR" initState
          (beforeFinal
            [Ev.attrsChanged (some "es"), Ev.finalSeg "hello" "en" 3 5,
             Ev.attrsChanged (some "fr"), Ev.finalSeg "again" "en" 6 9]
            1)).translators).map (fun c => (1, c)) :=
  ((C2_fanout_dispatch_exactly_once "agent" "TR"
      [Ev.attrsChanged (some "es"), Ev.finalSeg "hello" "en" 3 5,
       Ev.attrsChanged (some "fr"), Ev.finalSeg "again" "en" 6 9]).2.1 1
    (by decide)).1

/-- C6 (counterexample).  The claim — the translated caption's text is the
translated text returned by the backend — is false of the source:
`Translator.translate` applies `.strip()` to `response.text` before building
the segment, so a backend return value with surrounding whitespace
(here `"hola "`) is published as `"hola"`, not as the returned text. -/
theorem C6_translated_caption_counterexample :
    ¬ ∀ (tr : Translator) (responseText freshId identity trackSid : String),
        (tr.translate responseText freshId identity trackSid).segments.map
          (fun seg => seg.text) = [responseText] := by
  intro h
  exact absurd (h (mkTranslator "es" "Spanish") "hola " "SG_1" "agent" "TR")
    (by decide)

/-- C6 (amended).  Every completed translation job hands the Caption
Publisher a transcription for the original segment's track whose single
segment is new: its id is the freshly generated identifier
(`shortuuid("SG_")`), its text is the backend's translated text with leading
and trailing whitespace stripped, its language field is the worker's language
code (`self.lang.name`), and its final flag is true. -/
theorem C6_translated_caption_shape (tr : Translator)
    (responseText freshId identity trackSid : String) :
    tr.translate responseText freshId identity trackSid =
      { participant_identity := identity, track_sid := trackSid,
        segments := [{ id := freshId, text := pyStrip responseText,
                       start_time := 0, end_time := 0,
                       language := tr.code, final := true }] } := rfl

lemma execJobs_attempted (outcome : Nat → String → Option String)
    (jobs : List (Nat × String)) : (execJobs outcome jobs).attempted = jobs := by
  induction jobs with
  | nil => rfl
  | cons j rest ih =>
    obtain ⟨k, L⟩ := j
    cases h : outcome k L <;> simp [execJobs, h, ih]

lemma execJobs_failures_mem (outcome : Nat → String → Option String)
    (jobs : List (Nat × String)) (k : Nat) (L : String)
    (hj : (k, L) ∈ jobs) (hf : outcome k L = none) :
    (k, L) ∈ (execJobs outcome jobs).failures := by
  induction jobs with
  | nil => cases hj
  | cons j rest ih =>
    obtain ⟨k2, L2⟩ := j
    rcases List.mem_cons.mp hj with he | hm
    · rw [Prod.mk.injEq] at he
      obtain ⟨rfl, rfl⟩ := he
      simp [execJobs, hf]
    · cases ho : outcome k2 L2 with
      | some raw => simpa [execJobs, ho] using ih hm
      | none =>
        simp [execJobs, ho]
        exact Or.inr (ih hm)

lemma execJobs_published_other (L : String)
    (outcome outcome2 : Nat → String → Option String)
    (hagree : ∀ k L2, L2 ≠ L → outcome2 k L2 = outcome k L2)
    (jobs : List (Nat × String)) (L2 : String) (hL2 : L2 ≠ L) :
    publishedFor (execJobs outcome2 jobs) L2
      = publishedFor (execJobs outcome jobs) L2 := by
  induction jobs with
  | nil => rfl
  | cons j rest ih =>
    obtain ⟨k, L1⟩ := j
    simp only [publishedFor] at ih ⊢
    by_cases hL1 : L1 = L
    · subst hL1
      cases h1 : outcome k L1 <;> cases h2 : outcome2 k L1 <;>
        simp [execJobs, h1, h2, List.filter_cons, Ne.symm hL2, ih]
    · have heq : outcome2 k L1 = outcome k L1 := hagree k L1 hL1
      cases h1 : outcome k L1 with
      | none => simp [execJobs, h1, heq, ih]
      | some raw => simp [execJobs, h1, heq, List.filter_cons, ih]

/-- C7.  A translation-backend failure is scoped to its own job: the list of
attempted jobs equals the list of dispatched jobs irrespective of any
outcome (so a failure on segment `i` for language `L` never prevents the
next dispatched `L`-job from being attempted — each spawned task runs its
backend call independently); a failing attempted job is reported to the
event loop's exception handler; and changing the outcomes of `L`-jobs (e.g.
injecting a failure) leaves the published captions of every other language
unchanged.  Original-language captions are published by
`_forward_transcription` before any translation task runs and take no input
from the translation jobs at all (`runEvs` does not mention outcomes). -/
theorem C7_translation_failure_isolated (jobs : List (Nat × String))
    (outcome outcome2 : Nat → String → Option String) (L : String) :
    (execJobs outcome jobs).attempted = jobs
    ∧ (∀ k, (k, L) ∈ jobs → outcome k L = none →
        (k, L) ∈ (execJobs outcome jobs).failures)
    ∧ ((∀ k L2, L2 ≠ L → outcome2 k L2 = outcome k L2) →
        ∀ L2, L2 ≠ L →
          publishedFor (execJobs outcome2 jobs) L2
            = publishedFor (execJobs outcome jobs) L2) :=
  ⟨execJobs_attempted outcome jobs,
   fun k hj hf => execJobs_failures_mem outcome jobs k L hj hf,
   fun hagree L2 hL2 => execJobs_published_other L outcome outcome2 hagree jobs L2 hL2⟩

theorem C7_translation_failure_isolated_witness :
    (execJobs (fun _ _ => (none : Option String))
        [(0, "es"), (0, "fr"), (1, "es")]).attempted
      = [(0, "es"), (0, "fr"), (1, "es")]
    ∧ (0, "es") ∈ (execJobs (fun _ _ => (none : Option String))
        [(0, "es"), (0, "fr"), (1, "es")]).failures
    ∧ publishedFor (execJobs (fun _ L2 => if L2 = "es" then none else some "hola ")
        [(0, "es"), (0, "fr"), (1, "es")]) "fr"
      = publishedFor (execJobs (fun _ _ => some "hola ")
        [(0, "es"), (0, "fr"), (1, "es")]) "fr" :=
  ⟨(C7_translation_failure_isolated [(0, "es"), (0, "fr"), (1, "es")]
      (fun _ _ => none) (fun _ _ => none) "es").1,
   (C7_translation_failure_isolated [(0, "es"), (0, "fr"), (1, "es")]
      (fun _ _ => none) (fun _ _ => none) "es").2.1 0 (by decide) rfl,
   (C7_translation_failure_isolated [(0, "es"), (0, "fr"), (1, "es")]
      (fun _ _ => some "hola ") (fun _ L2 => if L2 = "es" then none else some "hola ")
      "es").2.2 (fun _ _ h => if_neg h) "fr" (by decide)⟩

/-- C8.  The `get/languages` RPC always returns the full Language Catalog as
an array of one `{code, name, flag}` record per catalog entry, in the
catalog's insertion order, and its result is independent of the session
state (in particular of which translators are active). -/
theorem C8_get_languages_full_catalog (p q : Pool) :
    get_languages p
      = [ [("code", "en"), ("name", "English"), ("flag", "🇺🇸")],
          [("code", "es"), ("name", "Spanish"), ("flag", "🇪🇸")],
          [("code", "fr"), ("name", "French"), ("flag", "🇫🇷")],
          [("code", "de"), ("name", "German"), ("flag", "🇩🇪")],
          [("code", "ja"), ("name", "Japanese"), ("flag", "🇯🇵")] ]
    ∧ get_languages p = languages.map asdict
    ∧ get_languages p = get_languages q :=
  ⟨rfl, rfl, rfl⟩

lemma runEvs_originals_pred (P : TranscriptionSegment → Prop) (i t : String)
    (es : List Ev)
    (hP : ∀ idStr txt,
            P { id := idStr, text := txt, start_time := 0,
                end_time := 0, language := "en", final := true }) :
    ∀ s : SessionState,
      (∀ tr ∈ s.originals, ∀ seg ∈ tr.segments, P seg) →
      ∀ tr ∈ (runEvs i t s es).originals, ∀ seg ∈ tr.segments, P seg := by
  induction es with
  | nil => intro s h; simpa [runEvs] using h
  | cons e rest ih =>
    intro s h
    cases e with
    | attrsChanged la => exact ih _ (by simpa [stepEv] using h)
    | interim tx => exact ih _ (by simpa [stepEv] using h)
    | finalSeg tx lg a b =>
      apply ih
      intro tr htr seg hseg
      rcases List.mem_append.mp htr with hm | hm
      · exact h tr hm seg hseg
      · rw [List.mem_singleton.mp hm] at hseg
        rw [List.mem_singleton.mp hseg]
        exact hP _ _

/-- C9.  Every original (untranslated) caption published by the fan-out path
carries the fixed language tag `"en"` — `_forward_transcription` hardcodes
`language="en"` — regardless of the language the recognizer reported for the
final transcript (the `recLang` field of the event, which the source never
reads). -/
theorem C9_original_caption_language_en (i t : String) (es : List Ev) :
    ∀ tr ∈ (runEvs i t initState es).originals, ∀ seg ∈ tr.segments,
      seg.language = "en" :=
  runEvs_originals_pred (fun seg => seg.language = "en") i t es
    (fun _ _ => rfl) initState (by simp [initState])

theorem C9_original_caption_language_en_witness :
    ({ id := "SG_0", text := "bonjour", start_time := 0, end_time := 0,
       language := "en", final := true } : TranscriptionSegment).language = "en" :=
  C9_original_caption_language_en "agent" "TR" [Ev.finalSeg "bonjour" "fr" 2 4]
    { participant_identity := "agent", track_sid := "TR",
      segments := [{ id := "SG_0", text := "bonjour", start_time := 0,
                     end_time := 0, language := "en", final := true }] }
    (by decide)
    { id := "SG_0", text := "bonjour", start_time := 0, end_time := 0,
      language := "en", final := true }
    (by decide)

/-- C10.  Every segment published to the caption boundary — original or
translated — carries `start_time = 0` and `end_time = 0`: both construction
sites hardcode the zeros, and the recognizer's timing markers (the
`recStart`/`recEnd` fields of the final event) are never propagated. -/
theorem C10_zero_timing_markers (i t : String) (es : List Ev) (tr2 : Translator)
    (responseText freshId identity trackSid : String) :
    (∀ tr ∈ (runEvs i t initState es).originals, ∀ seg ∈ tr.segments,
        seg.start_time = 0 ∧ seg.end_time = 0)
    ∧ (∀ seg ∈ (tr2.translate responseText freshId identity trackSid).segments,
        seg.start_time = 0 ∧ seg.end_time = 0) := by
  constructor
  · exact runEvs_originals_pred
      (fun seg => seg.start_time = 0 ∧ seg.end_time = 0) i t es
      (fun _ _ => ⟨rfl, rfl⟩) initState (by simp [initState])
  · intro seg hseg
    rw [List.mem_singleton.mp hseg]
    exact ⟨rfl, rfl⟩

theorem C10_zero_timing_markers_witness :
    ({ id := "SG_0", text := "bonjour", start_time := 0, end_time := 0,
       language := "en", final := true } : TranscriptionSegment).start_time = 0
    ∧ ({ id := "SG_0", text := "bonjour", start_time := 0, end_time := 0,
         language := "en", final := true } : TranscriptionSegment).end_time = 0 :=
  (C10_zero_timing_markers "agent" "TR" [Ev.finalSeg "bonjour" "fr" 2 4]
      (mkTranslator "es" "Spanish") "hola" "SG_9" "agent" "TR").1
    { participant_identity := "agent", track_sid := "TR",
      segments := [{ id := "SG_0", text := "bonjour", start_time := 0,
                     end_time := 0, language := "en", final := true }] }
    (by decide)
    { id := "SG_0", text := "bonjour", start_time := 0, end_time := 0,
      language := "en", final := true }
    (by decide)

example : (applyReqs [] [some "es"]).keys = ["es"] := by decide
example : (applyReqs [] [some "es", some "es"]).keys = ["es"] := by decide
example : (applyReqs [] [some "xx"]).keys = [] := by decide
example : (applyReqs [] [some "en"]).keys = [] := by decide
example : (on_attributes_changed [] (some "xx")).2 = [LogEntry.unsupportedCode "xx"] := by decide

end Transcriber
